import Mathlib

/-!
Shallow embedding of `contracts/cw1-subkeys/src/wallet.rs`: the `Wallet`
balance-collection type (a vector of `Coin`s) together with its operations
`has`, `normalize`, `find`, `insert_pos`, the `AddAssign`/`Add` operators for
a single `Coin` and for a whole `Wallet`, and the fallible `Sub<Coin>`
operator.

Modelling conventions:
* A `Wallet` is a `List Coin`; `Coin` carries a denomination (`String`) and
  an amount.  Amounts are `u128` in the source via `cosmwasm_std::Uint128`;
  they are modelled as `Nat` (the spec treats the amount type as opaque
  non-negative integers whose addition and checked subtraction are supplied
  externally).
* Denominations are compared with Rust's `str` ordering, which is
  lexicographic; this agrees with the character-list order of Lean strings.
  Inside definitions we use the executable comparison `denomLeB` on
  character lists, which is proved equivalent to `String.le`
  (`denomLeB_iff`), so that every definition evaluates by `decide`.
* `Vec` mutations (`retain`, `sort_unstable_by`, indexed writes, `remove`,
  `insert`, `push`) become the corresponding pure list operations.  The
  source's `sort_unstable_by(|a, b| a.denom.cmp(&b.denom))` only promises
  some permutation sorted by denomination; it is modelled as an insertion
  sort by denomination (`sortByDenom`).
* Fallible code (`StdResult`) becomes `Except StdError`.  The only error
  the source can produce is `StdError::underflow(minuend, subtrahend)`,
  raised either by `Uint128` subtraction (minuend = held amount) or
  directly with minuend 0 when the denomination is absent, so `StdError`
  is modelled with that single constructor.
-/

/-- A single token balance: `cosmwasm_std::Coin` with a `u128` amount. -/
structure Coin where
  denom : String
  amount : Nat
deriving DecidableEq

/-- The only `cosmwasm_std::StdError` variant reachable from `wallet.rs`:
`StdError::underflow(minuend, subtrahend)`. -/
inductive StdError where
  | underflow (minuend : Nat) (subtrahend : Nat)
deriving DecidableEq

deriving instance DecidableEq for Except

namespace Wallet

/-- Executable lexicographic comparison of denominations (Rust `str >=` /
`<=` on the operand order given here), via the character lists. -/
def denomLeB (a b : String) : Bool := decide (a.toList ≤ b.toList)

theorem denomLeB_iff (a b : String) : denomLeB a b = true ↔ a ≤ b := by
  simp [denomLeB, String.le_iff_toList_le]

/-- Rust `Wallet::has`: `self.0.iter().find(|c| c.denom == required.denom)
.map(|m| m.amount >= required.amount).unwrap_or(false)`. -/
def has (w : List Coin) (required : Coin) : Bool :=
  ((w.find? fun c => c.denom == required.denom).map
    fun m => decide (required.amount ≤ m.amount)).getD false

/-- Rust `Wallet::find`: `self.0.iter().enumerate().find(|(_i, c)| c.denom == denom)`. -/
def find (w : List Coin) (denom : String) : Option (Nat × Coin) :=
  w.enum.find? fun ic => ic.2.denom == denom

/-- Rust `Wallet::insert_pos`: `self.0.iter().position(|c| c.denom.as_str() >= denom)`. -/
def insertPos (w : List Coin) (denom : String) : Option Nat :=
  w.findIdx? fun c => denomLeB denom c.denom

/-- Rust `impl ops::AddAssign<Coin> for Wallet` (also `Add<Coin>`, which just
delegates to it on an owned value). -/
def addCoin (w : List Coin) (other : Coin) : List Coin :=
  match find w other.denom with
  | some (i, c) => w.set i ⟨c.denom, c.amount + other.amount⟩
  | none =>
    match insertPos w other.denom with
    | some idx => w.insertIdx idx other
    | none => w ++ [other]

/-- Rust `impl ops::AddAssign<Wallet> for Wallet`: the `for coin in
other.0.into_iter() { self.add_assign(coin) }` loop, with the mutable
`self` threaded through as an accumulator. -/
def addWallet (w : List Coin) : List Coin → List Coin
  | [] => w
  | c :: rest => addWallet (addCoin w c) rest

/-- The spec's description of collection merge: "applying scalar addition
for every entry of `other_collection`, in the order those entries appear".
Stated with `List.foldl` to compare against the source's loop. -/
def specFoldScalarAdd (w other : List Coin) : List Coin :=
  other.foldl addCoin w

/-- The `cosmwasm_std` `Uint128` subtraction (`c.amount - other.amount` in the
source): checked subtraction that fails with
`StdError::underflow(minuend, subtrahend)`. -/
def subAmount (a b : Nat) : Except StdError Nat :=
  if b ≤ a then Except.ok (a - b) else Except.error (StdError.underflow a b)

/-- Rust `impl ops::Sub<Coin> for Wallet`: on success the mutated wallet is
returned; the `?` on the amount subtraction and the explicit
`StdError::underflow(0, other.amount.u128())` return are the two failure
paths, on which no wallet is returned. -/
def subCoin (w : List Coin) (other : Coin) : Except StdError (List Coin) :=
  match find w other.denom with
  | some (i, c) =>
    match subAmount c.amount other.amount with
    | Except.error e => Except.error e
    | Except.ok remainder =>
      if remainder = 0 then Except.ok (w.eraseIdx i)
      else Except.ok (w.set i ⟨c.denom, remainder⟩)
  | none => Except.error (StdError.underflow 0 other.amount)

/-- First pass of `Wallet::normalize`: `self.0.retain(|c| c.amount.u128() != 0)`. -/
def dropZeros (w : List Coin) : List Coin := w.filter fun c => c.amount != 0

/-- Insertion step of the sort modelling `sort_unstable_by(|a, b|
a.denom.cmp(&b.denom))`: place `c` before the first entry whose
denomination is `>=` its own. -/
def insertSorted (c : Coin) : List Coin → List Coin
  | [] => [c]
  | b :: t => if denomLeB c.denom b.denom then c :: b :: t else b :: insertSorted c t

/-- Second pass of `Wallet::normalize`: sort by denomination. -/
def sortByDenom : List Coin → List Coin
  | [] => []
  | c :: t => insertSorted c (sortByDenom t)

/-- Third pass of `Wallet::normalize`, step 1: `find all i where
(self[i-1].denom == self[i].denom)`, collected in ascending order by
`enumerate().filter_map(..)`. -/
def dupIndices (w : List Coin) : List Nat :=
  (List.range w.length).filter fun i =>
    i != 0 && (w[i]?.map Coin.denom == w[i-1]?.map Coin.denom)

/-- One iteration of the duplicate-merging loop of `Wallet::normalize`:
`self.0[dup - 1].amount += self.0[dup].amount; self.0.remove(dup)`.
The indices produced by `dupIndices` are always in bounds, so the
fall-through arm is never taken on the loop's actual arguments. -/
def mergeAt (w : List Coin) (i : Nat) : List Coin :=
  match w[i]?, w[i-1]? with
  | some c, some p => (w.set (i-1) ⟨p.denom, p.amount + c.amount⟩).eraseIdx i
  | _, _ => w

/-- Third pass of `Wallet::normalize`: `dups.reverse(); for dup in dups
{ .. }`. -/
def mergeDups (w : List Coin) : List Coin :=
  (dupIndices w).reverse.foldl mergeAt w

/-- Rust `Wallet::normalize`: drop zero amounts, sort by denomination, merge
duplicate denominations. -/
def normalize (w : List Coin) : List Coin :=
  mergeDups (sortByDenom (dropZeros w))

/-- The repository's unit test `normalize_wallet`, first scenario:
remove zero-value items and sort. -/
theorem rust_test_normalize_zero_sort :
    normalize [⟨"ETH", 123⟩, ⟨"BTC", 0⟩, ⟨"ATOM", 8990⟩] =
      [⟨"ATOM", 8990⟩, ⟨"ETH", 123⟩] := by decide

/-- The repository's unit test `normalize_wallet`, second scenario:
merge duplicate entries of the same denomination. -/
theorem rust_test_normalize_merge_dups :
    normalize [⟨"ETH", 123⟩, ⟨"BTC", 789⟩, ⟨"ETH", 321⟩, ⟨"BTC", 11⟩] =
      [⟨"BTC", 800⟩, ⟨"ETH", 444⟩] := by decide

/-- The repository's unit test `wallet_has_works`. -/
theorem rust_test_wallet_has :
    has [⟨"BTC", 555⟩, ⟨"ETH", 12345⟩] ⟨"ETH", 777⟩ = true ∧
    has [⟨"BTC", 555⟩, ⟨"ETH", 12345⟩] ⟨"BTC", 555⟩ = true ∧
    has [⟨"BTC", 555⟩, ⟨"ETH", 12345⟩] ⟨"ETH", 12346⟩ = false ∧
    has [⟨"BTC", 555⟩, ⟨"ETH", 12345⟩] ⟨"ETC", 456⟩ = false := by decide

/-- The repository's unit test `wallet_add_works`. -/
theorem rust_test_wallet_add :
    addCoin [⟨"BTC", 555⟩, ⟨"ETH", 12345⟩] ⟨"ETH", 54321⟩ =
      [⟨"BTC", 555⟩, ⟨"ETH", 66666⟩] ∧
    addCoin [⟨"BTC", 555⟩, ⟨"ETH", 12345⟩] ⟨"ATOM", 777⟩ =
      [⟨"ATOM", 777⟩, ⟨"BTC", 555⟩, ⟨"ETH", 12345⟩] := by decide

/-- The repository's unit test `wallet_in_place_addition`, merge part. -/
theorem rust_test_wallet_merge :
    addWallet [⟨"ATOM", 777⟩, ⟨"BTC", 555⟩] [⟨"ETH", 666⟩, ⟨"ATOM", 123⟩] =
      [⟨"ATOM", 900⟩, ⟨"BTC", 555⟩, ⟨"ETH", 666⟩] := by decide

/-- The repository's unit test `wallet_subtract_works`. -/
theorem rust_test_wallet_subtract :
    subCoin [⟨"BTC", 555⟩, ⟨"ETH", 12345⟩] ⟨"ETH", 2345⟩ =
      Except.ok [⟨"BTC", 555⟩, ⟨"ETH", 10000⟩] ∧
    subCoin [⟨"BTC", 555⟩, ⟨"ETH", 12345⟩] ⟨"BTC", 555⟩ =
      Except.ok [⟨"ETH", 12345⟩] ∧
    subCoin [⟨"BTC", 555⟩, ⟨"ETH", 12345⟩] ⟨"BTC", 666⟩ =
      Except.error (StdError.underflow 555 666) ∧
    subCoin [⟨"BTC", 555⟩, ⟨"ETH", 12345⟩] ⟨"ATOM", 1⟩ =
      Except.error (StdError.underflow 0 1) := by decide

/-! ### Characterizations of `find` and `insertPos` -/

theorem find_enumFrom_shift (t : List Coin) (d : String) (n : Nat) :
    ((List.enumFrom (n+1) t).find? fun ic => ic.2.denom == d)
      = (((List.enumFrom n t).find? fun ic => ic.2.denom == d).map
          fun p => (p.1 + 1, p.2)) := by
  induction t generalizing n with
  | nil => rfl
  | cons a t ih =>
    show (((n+1, a) :: List.enumFrom (n+2) t).find? fun ic => ic.2.denom == d)
        = ((((n, a) :: List.enumFrom (n+1) t).find? fun ic => ic.2.denom == d).map
            fun p => (p.1 + 1, p.2))
    by_cases h : (a.denom == d) = true
    · simp [List.find?, h]
    · simp only [List.find?, h]
      exact ih (n+1)

theorem find_cons (b : Coin) (t : List Coin) (d : String) :
    find (b :: t) d =
      if b.denom = d then some (0, b)
      else (find t d).map fun p => (p.1 + 1, p.2) := by
  show ((((0:Nat), b) :: List.enumFrom 1 t).find? fun ic => ic.2.denom == d) = _
  by_cases h : b.denom = d
  · simp [List.find?, h]
  · have hb : (b.denom == d) = false := by simp [h]
    simp only [List.find?, hb, if_neg h]
    exact find_enumFrom_shift t d 0

theorem find_eq_none_iff (w : List Coin) (d : String) :
    find w d = none ↔ ∀ e ∈ w, e.denom ≠ d := by
  induction w with
  | nil => simp [find]
  | cons b t ih =>
    rw [find_cons]
    by_cases h : b.denom = d
    · simp [h]
    · simp only [if_neg h, Option.map_eq_none', ih, List.mem_cons]
      constructor
      · rintro ht e (rfl | he)
        · exact h
        · exact ht e he
      · intro hall e he
        exact hall e (Or.inr he)

theorem find_some (w : List Coin) (d : String) (i : Nat) (e : Coin)
    (h : find w d = some (i, e)) : w[i]? = some e ∧ e.denom = d := by
  induction w generalizing i with
  | nil => simp [find] at h
  | cons b t ih =>
    rw [find_cons] at h
    by_cases hb : b.denom = d
    · rw [if_pos hb] at h
      injection h with h
      rw [Prod.mk.injEq] at h
      obtain ⟨rfl, rfl⟩ := h
      exact ⟨by simp, hb⟩
    · rw [if_neg hb] at h
      obtain ⟨⟨j, e'⟩, hj, hje⟩ := Option.map_eq_some'.1 h
      rw [Prod.mk.injEq] at hje
      obtain ⟨rfl, rfl⟩ := hje
      simpa using ih j hj

theorem find_mem (w : List Coin) (d : String) (i : Nat) (e : Coin)
    (h : find w d = some (i, e)) : e ∈ w :=
  List.getElem?_mem (find_some w d i e h).1

theorem findIdx?_start_shift (p : Coin → Bool) (t : List Coin) (n : Nat) :
    List.findIdx? p t (n+1) = (List.findIdx? p t n).map (· + 1) := by
  induction t generalizing n with
  | nil => rfl
  | cons a t ih =>
    rw [List.findIdx?_cons, List.findIdx?_cons]
    by_cases h : p a
    · simp [h]
    · simp only [h, Bool.false_eq_true, if_false, ih (n+1)]

theorem insertPos_cons (b : Coin) (t : List Coin) (d : String) :
    insertPos (b :: t) d =
      if denomLeB d b.denom then some 0 else (insertPos t d).map (· + 1) := by
  show List.findIdx? _ (b :: t) 0 = _
  rw [List.findIdx?_cons]
  by_cases h : denomLeB d b.denom
  · simp [h]
  · simp only [h, Bool.false_eq_true, if_false]
    exact findIdx?_start_shift _ t 0

/-! ### The per-denomination total, the measure that normalization and the
arithmetic operators preserve -/

/-- The contribution of one entry to the total of denomination `d`. -/
def coinContrib (c : Coin) (d : String) : Nat :=
  if c.denom = d then c.amount else 0

/-- Sum of the amounts of all entries with denomination `d`. -/
def denomTotal (w : List Coin) (d : String) : Nat :=
  (w.map fun c => coinContrib c d).sum

theorem denomTotal_nil (d : String) : denomTotal [] d = 0 := rfl

theorem denomTotal_cons (c : Coin) (w : List Coin) (d : String) :
    denomTotal (c :: w) d = coinContrib c d + denomTotal w d := by
  simp [denomTotal]

theorem denomTotal_append (u v : List Coin) (d : String) :
    denomTotal (u ++ v) d = denomTotal u d + denomTotal v d := by
  simp [denomTotal]

theorem denomTotal_perm {u v : List Coin} (h : u.Perm v) (d : String) :
    denomTotal u d = denomTotal v d :=
  (h.map fun c => coinContrib c d).sum_eq

theorem denomTotal_eq_zero_of_not_mem {w : List Coin} {d : String}
    (h : ∀ e ∈ w, e.denom ≠ d) : denomTotal w d = 0 := by
  induction w with
  | nil => rfl
  | cons c t ih =>
    rw [denomTotal_cons, coinContrib, if_neg (h c (List.mem_cons_self c t)),
      ih fun e he => h e (List.mem_cons_of_mem c he)]

theorem amount_le_denomTotal {w : List Coin} {e : Coin} (he : e ∈ w) {d : String}
    (hd : e.denom = d) : e.amount ≤ denomTotal w d := by
  induction w with
  | nil => cases he
  | cons c t ih =>
    rw [denomTotal_cons]
    rcases List.mem_cons.1 he with rfl | ht
    · rw [coinContrib, if_pos hd]; exact Nat.le_add_right _ _
    · exact le_add_self.trans' (ih ht) |>.trans (le_refl _)

theorem exists_mem_of_denomTotal_ne_zero {w : List Coin} {d : String}
    (h : denomTotal w d ≠ 0) : ∃ e ∈ w, e.denom = d := by
  by_contra hc
  push_neg at hc
  exact h (denomTotal_eq_zero_of_not_mem hc)


/-! ### Sorting lemmas -/

theorem denomLeB_eq_false (a b : String) : denomLeB a b = false ↔ b < a := by
  rw [Bool.eq_false_iff, Ne, denomLeB_iff, not_le]

theorem mem_insertSorted (x c : Coin) (w : List Coin) :
    x ∈ insertSorted c w ↔ x = c ∨ x ∈ w := by
  induction w with
  | nil => simp [insertSorted]
  | cons b t ih =>
    cases h : denomLeB c.denom b.denom
    · simp only [insertSorted, h, Bool.false_eq_true, if_false, List.mem_cons, ih]
      tauto
    · simp only [insertSorted, h, if_true, List.mem_cons]

theorem perm_insertSorted (c : Coin) (w : List Coin) :
    (insertSorted c w).Perm (c :: w) := by
  induction w with
  | nil => exact List.Perm.refl _
  | cons b t ih =>
    cases h : denomLeB c.denom b.denom
    · simp only [insertSorted, h, Bool.false_eq_true, if_false]
      exact (List.Perm.cons b ih).trans (List.Perm.swap c b t)
    · simp only [insertSorted, h, if_true]
      exact List.Perm.refl _

theorem denomTotal_insertSorted (c : Coin) (w : List Coin) (d : String) :
    denomTotal (insertSorted c w) d = coinContrib c d + denomTotal w d := by
  rw [denomTotal_perm (perm_insertSorted c w), denomTotal_cons]

theorem insertSorted_sorted_le (c : Coin) (w : List Coin)
    (hw : (w.map Coin.denom).Pairwise (· ≤ ·)) :
    ((insertSorted c w).map Coin.denom).Pairwise (· ≤ ·) := by
  induction w with
  | nil => simp [insertSorted]
  | cons b t ih =>
    rw [List.map_cons, List.pairwise_cons] at hw
    obtain ⟨hb, ht⟩ := hw
    cases h : denomLeB c.denom b.denom
    · have hbc : b.denom ≤ c.denom := le_of_lt ((denomLeB_eq_false _ _).1 h)
      simp only [insertSorted, h, Bool.false_eq_true, if_false, List.map_cons,
        List.pairwise_cons]
      refine ⟨?_, ih ht⟩
      intro d' hd'
      obtain ⟨x, hx, rfl⟩ := List.mem_map.1 hd'
      rcases (mem_insertSorted x c t).1 hx with rfl | hxt
      · exact hbc
      · exact hb _ (List.mem_map_of_mem Coin.denom hxt)
    · have hcb : c.denom ≤ b.denom := (denomLeB_iff _ _).1 h
      simp only [insertSorted, h, if_true, List.map_cons, List.pairwise_cons]
      refine ⟨?_, ?_, ht⟩
      · intro d' hd'
        rcases List.mem_cons.1 hd' with rfl | hmem
        · exact hcb
        · exact hcb.trans (hb _ hmem)
      · exact hb

theorem perm_sortByDenom (w : List Coin) : (sortByDenom w).Perm w := by
  induction w with
  | nil => exact List.Perm.refl _
  | cons c t ih =>
    show (insertSorted c (sortByDenom t)).Perm (c :: t)
    exact (perm_insertSorted c (sortByDenom t)).trans (List.Perm.cons c ih)

theorem sortByDenom_sorted_le (w : List Coin) :
    ((sortByDenom w).map Coin.denom).Pairwise (· ≤ ·) := by
  induction w with
  | nil => simp [sortByDenom]
  | cons c t ih => exact insertSorted_sorted_le c (sortByDenom t) ih

theorem denomTotal_sortByDenom (w : List Coin) (d : String) :
    denomTotal (sortByDenom w) d = denomTotal w d :=
  denomTotal_perm (perm_sortByDenom w) d

/-! ### `dropZeros` lemmas -/

theorem mem_dropZeros (x : Coin) (w : List Coin) :
    x ∈ dropZeros w ↔ x ∈ w ∧ x.amount ≠ 0 := by
  simp [dropZeros, List.mem_filter]

theorem denomTotal_dropZeros (w : List Coin) (d : String) :
    denomTotal (dropZeros w) d = denomTotal w d := by
  induction w with
  | nil => rfl
  | cons c t ih =>
    by_cases h : c.amount = 0
    · have hc : coinContrib c d = 0 := by simp [coinContrib, h]
      simp only [dropZeros, List.filter_cons, denomTotal_cons]
      rw [if_neg (by simp [h]), ← dropZeros, ih, hc, Nat.zero_add]
    · simp only [dropZeros, List.filter_cons, denomTotal_cons]
      rw [if_pos (by simpa using h), denomTotal_cons, ← dropZeros, ih]

/-! ### Canonical form -/

/-- The canonical-form invariant from the spec: no zero amounts, and
denominations strictly ascending in the lexicographic string order (which
also rules out duplicate denominations). -/
def IsCanonical (w : List Coin) : Prop :=
  (∀ c ∈ w, c.amount ≠ 0) ∧ (w.map Coin.denom).Pairwise (· < ·)

/-- Executable characterization of `IsCanonical` (the string order spelled
out on character lists), used to discharge concrete instances. -/
theorem isCanonical_iff_aux (w : List Coin) :
    IsCanonical w ↔ ((∀ c ∈ w, c.amount ≠ 0) ∧
      (w.map Coin.denom).Pairwise (fun a b => a.toList < b.toList)) := by
  unfold IsCanonical
  refine and_congr_right fun _ => ?_
  refine List.Pairwise.iff (fun a b => ?_)
  exact String.lt_iff_toList_lt

theorem IsCanonical.nodup_denoms {w : List Coin} (h : IsCanonical w) :
    (w.map Coin.denom).Nodup :=
  h.2.imp ne_of_lt


/-! ### A recursive reference form of the duplicate-merging loop

`collapseFrom`/`collapse` collapse each maximal run of consecutive entries
sharing a denomination into a single entry holding the run's sum.  This is
proved to coincide with the source's index-based loop (`mergeDups`) in
`mergeDups_eq_collapse` below, and is what the structural lemmas about
`normalize` are proved against. -/

def collapseFrom (c : Coin) : List Coin → List Coin
  | [] => [c]
  | b :: rest =>
    if c.denom = b.denom then collapseFrom ⟨c.denom, c.amount + b.amount⟩ rest
    else c :: collapseFrom b rest

def collapse : List Coin → List Coin
  | [] => []
  | c :: t => collapseFrom c t

/-- Sum of the leading run of entries with denomination `d`. -/
def runSum (d : String) : List Coin → Nat
  | [] => 0
  | b :: r => if b.denom = d then b.amount + runSum d r else 0

/-- What remains after the leading run of entries with denomination `d`. -/
def dropRun (d : String) : List Coin → List Coin
  | [] => []
  | b :: r => if b.denom = d then dropRun d r else b :: r

theorem collapseFrom_run (d : String) (x : Nat) (rest : List Coin) :
    collapseFrom ⟨d, x⟩ rest =
      ⟨d, x + runSum d rest⟩ :: collapse (dropRun d rest) := by
  induction rest generalizing x with
  | nil => simp [collapseFrom, runSum, dropRun, collapse]
  | cons b r ih =>
    by_cases h : d = b.denom
    · simp only [collapseFrom, runSum, dropRun]
      rw [if_pos h, if_pos h.symm, if_pos h.symm, ih, Nat.add_assoc]
    · simp only [collapseFrom, runSum, dropRun]
      rw [if_neg h, if_neg (fun hh => h hh.symm), if_neg (fun hh => h hh.symm),
        Nat.add_zero]
      rfl

theorem collapseFrom_amounts {t : List Coin} {c : Coin} (hc : c.amount ≠ 0)
    (ht : ∀ e ∈ t, e.amount ≠ 0) : ∀ e ∈ collapseFrom c t, e.amount ≠ 0 := by
  induction t generalizing c with
  | nil =>
    intro e he
    simp only [collapseFrom, List.mem_singleton] at he
    exact he ▸ hc
  | cons b r ih =>
    intro e he
    by_cases h : c.denom = b.denom
    · simp only [collapseFrom] at he
      rw [if_pos h] at he
      have hc' : (⟨c.denom, c.amount + b.amount⟩ : Coin).amount ≠ 0 := by
        show c.amount + b.amount ≠ 0
        omega
      exact ih hc' (fun x hx => ht x (List.mem_cons_of_mem b hx)) e he
    · simp only [collapseFrom] at he
      rw [if_neg h] at he
      rcases List.mem_cons.1 he with rfl | he'
      · exact hc
      · exact ih (ht b (List.mem_cons_self b r))
          (fun x hx => ht x (List.mem_cons_of_mem b hx)) e he'

theorem collapseFrom_denoms {t : List Coin} {c e : Coin}
    (he : e ∈ collapseFrom c t) :
    e.denom = c.denom ∨ e.denom ∈ t.map Coin.denom := by
  induction t generalizing c with
  | nil =>
    simp only [collapseFrom, List.mem_singleton] at he
    exact Or.inl (he ▸ rfl)
  | cons b r ih =>
    by_cases h : c.denom = b.denom
    · simp only [collapseFrom] at he
      rw [if_pos h] at he
      rcases ih he with hd | hd
      · exact Or.inl hd
      · exact Or.inr (List.mem_cons_of_mem _ hd)
    · simp only [collapseFrom] at he
      rw [if_neg h] at he
      rcases List.mem_cons.1 he with rfl | he'
      · exact Or.inl rfl
      · rcases ih he' with hd | hd
        · exact Or.inr (hd ▸ List.mem_cons_self b.denom _)
        · exact Or.inr (List.mem_cons_of_mem _ hd)

theorem collapseFrom_sorted {t : List Coin} {c : Coin}
    (hle : ∀ e ∈ t, c.denom ≤ e.denom)
    (ht : (t.map Coin.denom).Pairwise (· ≤ ·)) :
    ((collapseFrom c t).map Coin.denom).Pairwise (· < ·) := by
  induction t generalizing c with
  | nil => simp [collapseFrom]
  | cons b r ih =>
    rw [List.map_cons, List.pairwise_cons] at ht
    obtain ⟨hbr, hr⟩ := ht
    by_cases h : c.denom = b.denom
    · simp only [collapseFrom]
      rw [if_pos h]
      apply ih _ hr
      intro e her
      show c.denom ≤ e.denom
      exact h ▸ hbr _ (List.mem_map_of_mem Coin.denom her)
    · have hlt : c.denom < b.denom :=
        lt_of_le_of_ne (hle b (List.mem_cons_self b r)) h
      simp only [collapseFrom]
      rw [if_neg h, List.map_cons, List.pairwise_cons]
      refine ⟨?_, ih (fun e her => hbr _ (List.mem_map_of_mem Coin.denom her)) hr⟩
      intro d' hd'
      obtain ⟨x, hx, rfl⟩ := List.mem_map.1 hd'
      rcases collapseFrom_denoms hx with hxd | hxd
      · exact hxd ▸ hlt
      · exact hlt.trans_le (hbr _ hxd)

theorem denomTotal_collapseFrom (c : Coin) (t : List Coin) (d : String) :
    denomTotal (collapseFrom c t) d = coinContrib c d + denomTotal t d := by
  induction t generalizing c with
  | nil => simp [collapseFrom, denomTotal_cons, denomTotal_nil]
  | cons b r ih =>
    by_cases h : c.denom = b.denom
    · simp only [collapseFrom]
      rw [if_pos h, ih, denomTotal_cons]
      have hmerge : coinContrib ⟨c.denom, c.amount + b.amount⟩ d =
          coinContrib c d + coinContrib b d := by
        by_cases hd : c.denom = d <;>
          simp [coinContrib, hd, ← h]
      rw [hmerge, Nat.add_assoc]
    · simp only [collapseFrom]
      rw [if_neg h, denomTotal_cons, ih, denomTotal_cons]

theorem collapse_canonical {s : List Coin} (hz : ∀ e ∈ s, e.amount ≠ 0)
    (hsort : (s.map Coin.denom).Pairwise (· ≤ ·)) : IsCanonical (collapse s) := by
  cases s with
  | nil => exact ⟨by simp [collapse], by simp [collapse]⟩
  | cons c t =>
    rw [List.map_cons, List.pairwise_cons] at hsort
    constructor
    · exact collapseFrom_amounts (hz c (List.mem_cons_self c t))
        (fun e he => hz e (List.mem_cons_of_mem c he))
    · exact collapseFrom_sorted
        (fun e he => hsort.1 _ (List.mem_map_of_mem Coin.denom he)) hsort.2

theorem denomTotal_collapse (s : List Coin) (d : String) :
    denomTotal (collapse s) d = denomTotal s d := by
  cases s with
  | nil => rfl
  | cons c t =>
    show denomTotal (collapseFrom c t) d = _
    rw [denomTotal_collapseFrom, denomTotal_cons]


/-! ### The index-based duplicate loop equals the recursive collapse -/

theorem mergeAt_cons_succ (a : Coin) (t : List Coin) (i : Nat) (hi : 1 ≤ i) :
    mergeAt (a :: t) (i+1) = a :: mergeAt t i := by
  obtain ⟨j, rfl⟩ : ∃ j, i = j + 1 := ⟨i - 1, by omega⟩
  simp only [mergeAt, List.getElem?_cons_succ, show j+1+1-1 = j+1 from rfl,
    show j+1-1 = j from rfl]
  cases h1 : t[j+1]? <;> cases h2 : t[j]? <;>
    simp [h1, h2, List.set_cons_succ, List.eraseIdx_cons_succ]

theorem mergeAt_one (a h : Coin) (u : List Coin) :
    mergeAt (a :: h :: u) 1 = ⟨a.denom, a.amount + h.amount⟩ :: u := by
  simp [mergeAt]

theorem dupIndices_pos (w : List Coin) : ∀ i ∈ dupIndices w, 1 ≤ i := by
  intro i hi
  rw [dupIndices, List.mem_filter] at hi
  have h2 := hi.2
  rw [Bool.and_eq_true, bne_iff_ne] at h2
  omega

theorem filter_range_split (r q : Nat → Bool) (n : Nat) (hq0 : q 0 = false)
    (hagree : ∀ i, r (i+1) = q (i+1)) (hr0 : n = 0 → r 0 = false) :
    (List.range n).filter r = (if r 0 then [0] else []) ++ (List.range n).filter q := by
  cases n with
  | zero => simp [List.range_zero, hr0 rfl]
  | succ m =>
    rw [List.range_succ_eq_map, List.filter_cons, List.filter_cons, hq0]
    have heq : (List.map Nat.succ (List.range m)).filter r
        = (List.map Nat.succ (List.range m)).filter q := by
      refine List.filter_congr ?_
      intro x hx
      obtain ⟨i, _, rfl⟩ := List.mem_map.1 hx
      exact hagree i
    rw [heq]
    by_cases h : r 0 = true <;> simp [h]

theorem dupIndices_cons (a : Coin) (t : List Coin) :
    dupIndices (a :: t) =
      (if t.head?.map Coin.denom = some a.denom then [1] else []) ++
        (dupIndices t).map (· + 1) := by
  have hfun : (Nat.succ : Nat → Nat) = (· + 1) := funext fun _ => rfl
  rw [dupIndices, dupIndices, List.length_cons, List.range_succ_eq_map,
    List.filter_cons]
  rw [if_neg (by simp)]
  rw [List.filter_map]
  rw [filter_range_split
    ((fun i => ((i != 0) &&
      ((a :: t)[i]?.map Coin.denom == (a :: t)[i-1]?.map Coin.denom))) ∘ Nat.succ)
    (fun i => ((i != 0) && (t[i]?.map Coin.denom == t[i-1]?.map Coin.denom)))
    t.length (by simp) ?_ ?_]
  · rw [List.map_append, hfun]
    congr 1
    by_cases h : t.head?.map Coin.denom = some a.denom
    · rw [if_pos h, if_pos ?_]
      · rfl
      · have h0 : t[0]? = t.head? := (List.head?_eq_getElem? t).symm
        show ((1 != 0) &&
          ((a :: t)[1]?.map Coin.denom == (a :: t)[0]?.map Coin.denom)) = true
        simp [h0, h]
    · rw [if_neg h, if_neg ?_]
      · rfl
      · have h0 : t[0]? = t.head? := (List.head?_eq_getElem? t).symm
        show ¬(((1 != 0) &&
          ((a :: t)[1]?.map Coin.denom == (a :: t)[0]?.map Coin.denom)) = true)
        simp [h0, h]
  · intro i
    show ((i+1+1 != 0) &&
        ((a :: t)[i+1+1]?.map Coin.denom == (a :: t)[i+1+1-1]?.map Coin.denom)) = _
    rw [show i+1+1-1 = i+1 from rfl, List.getElem?_cons_succ, List.getElem?_cons_succ]
    show (true && (t[i+1]?.map Coin.denom == t[i]?.map Coin.denom)) = _
    rw [Bool.true_and]
    show _ = (true && (t[i+1]?.map Coin.denom == t[i+1-1]?.map Coin.denom))
    rw [Bool.true_and, show i+1-1 = i from rfl]
  · intro hn
    have ht : t = [] := List.length_eq_zero.mp hn
    subst ht
    rfl

theorem foldl_mergeAt_shift (ds : List Nat) (hds : ∀ i ∈ ds, 1 ≤ i)
    (a : Coin) (t : List Coin) :
    (ds.map (· + 1)).foldl mergeAt (a :: t) = a :: ds.foldl mergeAt t := by
  induction ds generalizing t with
  | nil => rfl
  | cons j ds ih =>
    rw [List.map_cons, List.foldl_cons, List.foldl_cons,
      mergeAt_cons_succ a t j (hds j (List.mem_cons_self _ _))]
    exact ih (fun i hi => hds i (List.mem_cons_of_mem _ hi)) (mergeAt t j)

theorem mergeDups_cons (a : Coin) (t : List Coin) :
    mergeDups (a :: t) =
      if t.head?.map Coin.denom = some a.denom
      then mergeAt (a :: mergeDups t) 1
      else a :: mergeDups t := by
  rw [mergeDups, dupIndices_cons]
  have hshift : ((dupIndices t).map (· + 1)).reverse.foldl mergeAt (a :: t)
      = a :: mergeDups t := by
    rw [← List.map_reverse]
    exact foldl_mergeAt_shift _
      (fun i hi => dupIndices_pos t i (List.mem_reverse.1 hi)) a t
  by_cases h : t.head?.map Coin.denom = some a.denom
  · rw [if_pos h, if_pos h, List.reverse_append, List.foldl_append, hshift]
    rfl
  · rw [if_neg h, if_neg h, List.reverse_append, List.foldl_append]
    simp only [List.reverse_nil, List.foldl_nil]
    exact hshift

theorem mergeDups_eq_collapse (w : List Coin) : mergeDups w = collapse w := by
  induction w with
  | nil => rfl
  | cons a t ih =>
    rw [mergeDups_cons, ih]
    cases t with
    | nil => rw [if_neg (by simp)]; rfl
    | cons b rest =>
      by_cases h : b.denom = a.denom
      · rw [if_pos (by simp [h])]
        have hb : collapse (b :: rest) =
            ⟨b.denom, b.amount + runSum b.denom rest⟩ :: collapse (dropRun b.denom rest) := by
          show collapseFrom b rest = _
          exact collapseFrom_run b.denom b.amount rest
        rw [hb, mergeAt_one]
        show _ = collapseFrom a (b :: rest)
        simp only [collapseFrom]
        rw [if_pos h.symm, collapseFrom_run]
        rw [show a.denom = b.denom from h.symm]
        rw [Nat.add_assoc]
      · rw [if_neg (by simp [h])]
        show a :: collapse (b :: rest) = collapseFrom a (b :: rest)
        simp only [collapseFrom]
        rw [if_neg (fun hh => h hh.symm)]
        rfl

/-! ### Canonicity and sum preservation of `normalize` -/

theorem normalize_eq_collapse (w : List Coin) :
    normalize w = collapse (sortByDenom (dropZeros w)) := by
  rw [normalize, mergeDups_eq_collapse]

theorem normalize_isCanonical (w : List Coin) : IsCanonical (normalize w) := by
  rw [normalize_eq_collapse]
  refine collapse_canonical ?_ (sortByDenom_sorted_le _)
  intro e he
  exact ((mem_dropZeros e w).1 ((perm_sortByDenom _).mem_iff.1 he)).2

theorem denomTotal_normalize (w : List Coin) (d : String) :
    denomTotal (normalize w) d = denomTotal w d := by
  rw [normalize_eq_collapse, denomTotal_collapse, denomTotal_sortByDenom,
    denomTotal_dropZeros]


/-! ### Extensionality: a canonical wallet is determined by its totals -/

theorem head_not_in_tail {a : Coin} {t : List Coin}
    (h : ((a :: t).map Coin.denom).Pairwise (· < ·)) :
    ∀ e ∈ t, e.denom ≠ a.denom := by
  rw [List.map_cons, List.pairwise_cons] at h
  intro e he
  exact ne_of_gt (h.1 _ (List.mem_map_of_mem Coin.denom he))

theorem denomTotal_head {a : Coin} {t : List Coin}
    (h : ((a :: t).map Coin.denom).Pairwise (· < ·)) :
    denomTotal (a :: t) a.denom = a.amount := by
  rw [denomTotal_cons, coinContrib, if_pos rfl,
    denomTotal_eq_zero_of_not_mem (head_not_in_tail h), Nat.add_zero]

theorem canonical_ext : ∀ {m m' : List Coin}, IsCanonical m → IsCanonical m' →
    (∀ d, denomTotal m d = denomTotal m' d) → m = m' := by
  intro m
  induction m with
  | nil =>
    intro m' _ hm' htot
    cases m' with
    | nil => rfl
    | cons b t' =>
      exfalso
      have hb := amount_le_denomTotal (List.mem_cons_self b t') (d := b.denom) rfl
      rw [← htot b.denom, denomTotal_nil] at hb
      exact hm'.1 b (List.mem_cons_self b t') (Nat.le_zero.mp hb)
  | cons a t ih =>
    intro m' hm hm' htot
    cases m' with
    | nil =>
      exfalso
      have ha := amount_le_denomTotal (List.mem_cons_self a t) (d := a.denom) rfl
      rw [htot a.denom, denomTotal_nil] at ha
      exact hm.1 a (List.mem_cons_self a t) (Nat.le_zero.mp ha)
    | cons b t' =>
      have hma : denomTotal (a :: t) a.denom = a.amount := denomTotal_head hm.2
      have hmb : denomTotal (b :: t') b.denom = b.amount := denomTotal_head hm'.2
      have hane : a.amount ≠ 0 := hm.1 a (List.mem_cons_self a t)
      have hbne : b.amount ≠ 0 := hm'.1 b (List.mem_cons_self b t')
      have hdeq : a.denom = b.denom := by
        by_contra hne
        have h1 : denomTotal (b :: t') a.denom ≠ 0 := by
          rw [← htot a.denom, hma]; exact hane
        obtain ⟨e, he, hed⟩ := exists_mem_of_denomTotal_ne_zero h1
        have het' : e ∈ t' := by
          rcases List.mem_cons.1 he with rfl | h
          · exact absurd hed.symm hne
          · exact h
        have hba : b.denom < a.denom := by
          have := (List.pairwise_cons.1 (List.map_cons Coin.denom b t' ▸ hm'.2)).1
          exact hed ▸ this _ (List.mem_map_of_mem Coin.denom het')
        have h2 : denomTotal (a :: t) b.denom ≠ 0 := by
          rw [htot b.denom, hmb]; exact hbne
        obtain ⟨f, hf, hfd⟩ := exists_mem_of_denomTotal_ne_zero h2
        have hft : f ∈ t := by
          rcases List.mem_cons.1 hf with rfl | h
          · exact absurd hfd (fun hh => hne hh)
          · exact h
        have hab : a.denom < b.denom := by
          have := (List.pairwise_cons.1 (List.map_cons Coin.denom a t ▸ hm.2)).1
          exact hfd ▸ this _ (List.mem_map_of_mem Coin.denom hft)
        exact absurd (hab.trans hba) (lt_irrefl _)
      have hamt : a.amount = b.amount := by
        rw [← hma, ← hmb, ← hdeq, htot a.denom]
      have hcoin : a = b := by
        cases a; cases b
        simp_all
      have htail : ∀ d, denomTotal t d = denomTotal t' d := by
        intro d
        by_cases hd : d = a.denom
        · subst hd
          rw [denomTotal_eq_zero_of_not_mem (head_not_in_tail hm.2),
            denomTotal_eq_zero_of_not_mem ?_]
          intro e he
          have := head_not_in_tail hm'.2 e he
          rw [← hcoin] at this
          exact this
        · have h1 := htot d
          rw [denomTotal_cons, denomTotal_cons] at h1
          have hca : coinContrib a d = 0 := by
            rw [coinContrib, if_neg (fun hh => hd hh.symm)]
          have hcb : coinContrib b d = 0 := by
            rw [coinContrib, if_neg (fun hh => hd (hcoin ▸ hh.symm))]
          omega
      have htc : IsCanonical t :=
        ⟨fun c hc => hm.1 c (List.mem_cons_of_mem a hc),
          (List.pairwise_cons.1 (List.map_cons Coin.denom a t ▸ hm.2)).2⟩
      have htc' : IsCanonical t' :=
        ⟨fun c hc => hm'.1 c (List.mem_cons_of_mem b hc),
          (List.pairwise_cons.1 (List.map_cons Coin.denom b t' ▸ hm'.2)).2⟩
      rw [hcoin, ih htc htc' htail]


/-! ### Scalar addition lemmas -/

theorem set_of_getElem?_eq {α : Type} {l : List α} {i : Nat} {a : α}
    (h : l[i]? = some a) : l.set i a = l := by
  induction l generalizing i with
  | nil => simp at h
  | cons x t ih =>
    cases i with
    | zero =>
      obtain rfl : x = a := by simpa using h
      rw [List.set_cons_zero]
    | succ j =>
      rw [List.getElem?_cons_succ] at h
      rw [List.set_cons_succ, ih h]

theorem denomTotal_set {w : List Coin} {i : Nat} {e : Coin}
    (h : w[i]? = some e) (v : Coin) (d : String) :
    denomTotal (w.set i v) d + coinContrib e d
      = denomTotal w d + coinContrib v d := by
  induction w generalizing i with
  | nil => simp at h
  | cons c t ih =>
    cases i with
    | zero =>
      obtain rfl : c = e := by simpa using h
      rw [List.set_cons_zero, denomTotal_cons, denomTotal_cons]
      omega
    | succ j =>
      rw [List.getElem?_cons_succ] at h
      rw [List.set_cons_succ, denomTotal_cons, denomTotal_cons]
      have := ih h
      omega

theorem addCoin_found {w : List Coin} {c : Coin} {i : Nat} {e : Coin}
    (h : find w c.denom = some (i, e)) :
    addCoin w c = w.set i ⟨e.denom, e.amount + c.amount⟩ := by
  rw [addCoin.eq_def, h]

theorem addCoin_none_eq {w : List Coin} {c : Coin} (h : find w c.denom = none) :
    addCoin w c = (match insertPos w c.denom with
      | some idx => w.insertIdx idx c
      | none => w ++ [c]) := by
  rw [addCoin.eq_def, h]

theorem addCoin_absent {w : List Coin} {c : Coin}
    (h : ∀ e ∈ w, e.denom ≠ c.denom) : addCoin w c = insertSorted c w := by
  induction w with
  | nil => rfl
  | cons b t ih =>
    have hf : find (b :: t) c.denom = none := (find_eq_none_iff _ _).2 h
    have hmemt : ∀ e ∈ t, e.denom ≠ c.denom :=
      fun e he => h e (List.mem_cons_of_mem b he)
    have hft : find t c.denom = none := (find_eq_none_iff _ _).2 hmemt
    rw [addCoin_none_eq hf, insertPos_cons]
    cases hcb : denomLeB c.denom b.denom
    · rw [if_neg (by simp [hcb])]
      cases hp : insertPos t c.denom with
      | none =>
        have ht : addCoin t c = t ++ [c] := by rw [addCoin_none_eq hft, hp]
        show (b :: t) ++ [c] = insertSorted c (b :: t)
        simp only [insertSorted]
        rw [if_neg (by simp [hcb]), List.cons_append, ← ih hmemt, ht]
      | some j =>
        have ht : addCoin t c = t.insertIdx j c := by rw [addCoin_none_eq hft, hp]
        show (b :: t).insertIdx (j+1) c = insertSorted c (b :: t)
        simp only [insertSorted]
        rw [if_neg (by simp [hcb]), List.insertIdx_succ_cons, ← ih hmemt, ht]
    · rw [if_pos (by simp [hcb])]
      show (b :: t).insertIdx 0 c = insertSorted c (b :: t)
      simp only [insertSorted]
      rw [if_pos (by simp [hcb]), List.insertIdx_zero]

theorem denomTotal_addCoin (w : List Coin) (c : Coin) (d : String) :
    denomTotal (addCoin w c) d = denomTotal w d + coinContrib c d := by
  cases hf : find w c.denom with
  | some p =>
    obtain ⟨i, e⟩ := p
    rw [addCoin_found hf]
    have hsp := find_some w c.denom i e hf
    have hts := denomTotal_set hsp.1 ⟨e.denom, e.amount + c.amount⟩ d
    have hcontrib : coinContrib ⟨e.denom, e.amount + c.amount⟩ d
        = coinContrib e d + coinContrib c d := by
      by_cases hd : e.denom = d
      · have hc : c.denom = d := hsp.2.symm.trans hd
        simp [coinContrib, hd, hc]
      · have hc : ¬ c.denom = d := fun hh => hd (hsp.2.trans hh)
        simp [coinContrib, hd, hc]
    omega
  | none =>
    have hmem : ∀ e ∈ w, e.denom ≠ c.denom := (find_eq_none_iff w c.denom).1 hf
    rw [addCoin_absent hmem, denomTotal_insertSorted]
    omega

theorem insertSorted_sorted_lt {c : Coin} {w : List Coin}
    (hw : (w.map Coin.denom).Pairwise (· < ·))
    (habs : ∀ e ∈ w, e.denom ≠ c.denom) :
    ((insertSorted c w).map Coin.denom).Pairwise (· < ·) := by
  induction w with
  | nil => simp [insertSorted]
  | cons b t ih =>
    rw [List.map_cons, List.pairwise_cons] at hw
    obtain ⟨hb, ht⟩ := hw
    cases hcb : denomLeB c.denom b.denom
    · have hbc : b.denom < c.denom := (denomLeB_eq_false _ _).1 hcb
      simp only [insertSorted, hcb, Bool.false_eq_true, if_false, List.map_cons,
        List.pairwise_cons]
      refine ⟨?_, ih ht (fun e he => habs e (List.mem_cons_of_mem b he))⟩
      intro d' hd'
      obtain ⟨x, hx, rfl⟩ := List.mem_map.1 hd'
      rcases (mem_insertSorted x c t).1 hx with rfl | hxt
      · exact hbc
      · exact hb _ (List.mem_map_of_mem Coin.denom hxt)
    · have hcble : c.denom ≤ b.denom := (denomLeB_iff _ _).1 hcb
      have hcb' : c.denom < b.denom :=
        lt_of_le_of_ne hcble (fun hh => habs b (List.mem_cons_self b t) hh.symm)
      simp only [insertSorted, hcb, if_true, List.map_cons, List.pairwise_cons]
      refine ⟨?_, hb, ht⟩
      intro d' hd'
      rcases List.mem_cons.1 hd' with rfl | hmem
      · exact hcb'
      · exact hcb'.trans (hb _ hmem)

theorem insertSorted_canonical {c : Coin} {w : List Coin} (hw : IsCanonical w)
    (hc : c.amount ≠ 0) (habs : ∀ e ∈ w, e.denom ≠ c.denom) :
    IsCanonical (insertSorted c w) := by
  constructor
  · intro x hx
    rcases (mem_insertSorted x c w).1 hx with rfl | hxw
    · exact hc
    · exact hw.1 x hxw
  · exact insertSorted_sorted_lt hw.2 habs

theorem addCoin_canonical {w : List Coin} {c : Coin} (hw : IsCanonical w)
    (h : (∃ e ∈ w, e.denom = c.denom) ∨ c.amount ≠ 0) :
    IsCanonical (addCoin w c) := by
  cases hf : find w c.denom with
  | some p =>
    obtain ⟨i, e⟩ := p
    rw [addCoin_found hf]
    have hsp := find_some w c.denom i e hf
    constructor
    · intro x hx
      rcases List.mem_or_eq_of_mem_set hx with hxw | rfl
      · exact hw.1 x hxw
      · show e.amount + c.amount ≠ 0
        have := hw.1 e (List.getElem?_mem hsp.1)
        omega
    · have hmap : (w.set i ⟨e.denom, e.amount + c.amount⟩).map Coin.denom
          = w.map Coin.denom := by
        rw [List.map_set]
        apply set_of_getElem?_eq
        rw [List.getElem?_map, hsp.1]
        rfl
      rw [hmap]
      exact hw.2
  | none =>
    have hmem : ∀ e ∈ w, e.denom ≠ c.denom := (find_eq_none_iff w c.denom).1 hf
    rcases h with ⟨e, he, hed⟩ | hc
    · exact absurd hed (hmem e he)
    · rw [addCoin_absent hmem]
      exact insertSorted_canonical hw hc hmem


/-! ### Merge (collection addition) lemmas -/

theorem denomTotal_addWallet (w v : List Coin) (d : String) :
    denomTotal (addWallet w v) d = denomTotal w d + denomTotal v d := by
  induction v generalizing w with
  | nil => rw [addWallet, denomTotal_nil, Nat.add_zero]
  | cons c rest ih =>
    rw [addWallet, ih, denomTotal_addCoin, denomTotal_cons]
    omega

/-! ### Subtraction lemmas -/

theorem subCoin_found {w : List Coin} {c : Coin} {i : Nat} {e : Coin}
    (hf : find w c.denom = some (i, e)) :
    subCoin w c = (match subAmount e.amount c.amount with
      | Except.error er => Except.error er
      | Except.ok remainder =>
        if remainder = 0 then Except.ok (w.eraseIdx i)
        else Except.ok (w.set i ⟨e.denom, remainder⟩)) := by
  rw [subCoin.eq_def, hf]

theorem subCoin_none {w : List Coin} {c : Coin} (hf : find w c.denom = none) :
    subCoin w c = Except.error (StdError.underflow 0 c.amount) := by
  rw [subCoin.eq_def, hf]

theorem subAmount_ok {a b : Nat} (h : b ≤ a) : subAmount a b = Except.ok (a - b) :=
  if_pos h

theorem subAmount_err {a b : Nat} (h : a < b) :
    subAmount a b = Except.error (StdError.underflow a b) :=
  if_neg (by omega)

theorem nodup_denom_inj {w : List Coin} (h : (w.map Coin.denom).Nodup)
    {e f : Coin} (he : e ∈ w) (hf : f ∈ w) (hd : e.denom = f.denom) : e = f := by
  induction w with
  | nil => cases he
  | cons b t ih =>
    rw [List.map_cons, List.nodup_cons] at h
    rcases List.mem_cons.1 he with rfl | he' <;> rcases List.mem_cons.1 hf with rfl | hf'
    · rfl
    · exact absurd (hd ▸ List.mem_map_of_mem Coin.denom hf') h.1
    · exact absurd (hd ▸ List.mem_map_of_mem Coin.denom he') h.1
    · exact ih h.2 he' hf'

theorem find_of_mem_nodup {w : List Coin} {e : Coin}
    (hnd : (w.map Coin.denom).Nodup) (he : e ∈ w) :
    ∃ i, find w e.denom = some (i, e) := by
  cases hf : find w e.denom with
  | none => exact absurd rfl ((find_eq_none_iff _ _).1 hf e he)
  | some p =>
    obtain ⟨i, f⟩ := p
    have hs := find_some _ _ _ _ hf
    have hfe : f = e := nodup_denom_inj hnd (List.getElem?_mem hs.1) he hs.2
    exact ⟨i, by rw [hfe]⟩

theorem eraseIdx_denoms {w : List Coin} {i : Nat} {e : Coin}
    (hnd : (w.map Coin.denom).Nodup) (h : w[i]? = some e) :
    ∀ f ∈ w.eraseIdx i, f.denom ≠ e.denom := by
  induction w generalizing i with
  | nil => simp at h
  | cons b t ih =>
    rw [List.map_cons, List.nodup_cons] at hnd
    cases i with
    | zero =>
      obtain rfl : b = e := by simpa using h
      rw [List.eraseIdx_cons_zero]
      intro f hf hfd
      exact hnd.1 (hfd ▸ List.mem_map_of_mem Coin.denom hf)
    | succ j =>
      rw [List.getElem?_cons_succ] at h
      rw [List.eraseIdx_cons_succ]
      intro f hf
      rcases List.mem_cons.1 hf with rfl | hf'
      · intro hfd
        exact hnd.1 (hfd ▸ List.mem_map_of_mem Coin.denom (List.getElem?_mem h))
      · exact ih hnd.2 h f hf'

theorem mem_set_self {l : List Coin} {i : Nat} {e : Coin}
    (h : l[i]? = some e) (v : Coin) : v ∈ l.set i v := by
  induction l generalizing i with
  | nil => simp at h
  | cons x t ih =>
    cases i with
    | zero => rw [List.set_cons_zero]; exact List.mem_cons_self v t
    | succ j =>
      rw [List.getElem?_cons_succ] at h
      rw [List.set_cons_succ]
      exact List.mem_cons_of_mem x (ih h)


/-! ### `has` characterization -/

theorem has_eq_true_iff_first (w : List Coin) (r : Coin) :
    has w r = true ↔
      ∃ m, w.find? (fun c => c.denom == r.denom) = some m ∧ r.amount ≤ m.amount := by
  rw [has]
  cases hf : w.find? (fun c => c.denom == r.denom) with
  | none => simp [hf]
  | some m => simp [hf]

theorem denomTotal_of_nodup {w : List Coin} {e : Coin}
    (hnd : (w.map Coin.denom).Nodup) (he : e ∈ w) :
    denomTotal w e.denom = e.amount := by
  induction w with
  | nil => cases he
  | cons b t ih =>
    rw [List.map_cons, List.nodup_cons] at hnd
    rw [denomTotal_cons]
    rcases List.mem_cons.1 he with rfl | he'
    · rw [coinContrib, if_pos rfl, denomTotal_eq_zero_of_not_mem, Nat.add_zero]
      intro f hf hfd
      exact hnd.1 (hfd ▸ List.mem_map_of_mem Coin.denom hf)
    · rw [ih hnd.2 he', coinContrib, if_neg, Nat.zero_add]
      intro hbd
      exact hnd.1 (hbd ▸ List.mem_map_of_mem Coin.denom he')

/-! ## The claims -/

/-- Claim C1: for every input collection (arbitrary, possibly
non-canonical), after calling `normalize` the collection is in canonical
form: no entry has amount zero, no two entries share the same
denomination, and entries are in strictly ascending lexicographic order by
denomination. -/
theorem normalize_canonical_form (w : List Coin) :
    (∀ c ∈ normalize w, c.amount ≠ 0) ∧
    ((normalize w).map Coin.denom).Nodup ∧
    ((normalize w).map Coin.denom).Pairwise (· < ·) := by
  obtain ⟨h1, h2⟩ := normalize_isCanonical w
  exact ⟨h1, h2.imp ne_of_lt, h2⟩

/-- Witness for C1: the canonical-form conjuncts evaluated on the
repository's own normalize test input. -/
theorem normalize_canonical_form_witness :
    ((normalize [⟨"ETH", 123⟩, ⟨"BTC", 0⟩, ⟨"ATOM", 8990⟩]).map Coin.denom).Nodup :=
  (normalize_canonical_form [⟨"ETH", 123⟩, ⟨"BTC", 0⟩, ⟨"ATOM", 8990⟩]).2.1

/-- Claim C4: for every input collection and denomination `d`, the sum of
the amounts of all entries with denomination `d` before `normalize` equals
the amount of the single entry with denomination `d` after `normalize`
when that sum is nonzero, and `d` is absent after `normalize` when that
sum is zero.  (`denomTotal w d` is that sum; the entry is unique.) -/
theorem normalize_sum_preservation (w : List Coin) (d : String) :
    (denomTotal w d = 0 → ∀ e ∈ normalize w, e.denom ≠ d) ∧
    (denomTotal w d ≠ 0 → ∃ e ∈ normalize w, e.denom = d ∧
      e.amount = denomTotal w d ∧ ∀ f ∈ normalize w, f.denom = d → f = e) := by
  have hcan := normalize_isCanonical w
  have hnd : ((normalize w).map Coin.denom).Nodup := hcan.2.imp ne_of_lt
  constructor
  · intro h0 e he hd
    have hle := amount_le_denomTotal he hd
    rw [denomTotal_normalize, h0, Nat.le_zero] at hle
    exact hcan.1 e he hle
  · intro hne
    have h1 : denomTotal (normalize w) d ≠ 0 := by
      rw [denomTotal_normalize]; exact hne
    obtain ⟨e, he, hed⟩ := exists_mem_of_denomTotal_ne_zero h1
    refine ⟨e, he, hed, ?_, ?_⟩
    · rw [← hed, ← denomTotal_normalize w e.denom]
      exact (denomTotal_of_nodup hnd he).symm
    · intro f hf hfd
      exact nodup_denom_inj hnd hf he (hfd.trans hed.symm)

/-- Claim C7: merging a collection `v` into `w` (the source's
`AddAssign<Wallet>` loop) yields exactly the fold of scalar addition over
the entries of `v`, in the order they appear in `v`. -/
theorem merge_eq_fold_scalar_add (w v : List Coin) :
    addWallet w v = specFoldScalarAdd w v := by
  induction v generalizing w with
  | nil => rfl
  | cons c rest ih =>
    show addWallet (addCoin w c) rest = List.foldl addCoin (addCoin w c) rest
    exact ih (addCoin w c)

/-- Claim C8: for all collections `a` and `b` (arbitrary, possibly
non-canonical), normalizing `a` merged with `b` equals normalizing `b`
merged with `a`. -/
theorem merge_comm_under_normalize (a b : List Coin) :
    normalize (addWallet a b) = normalize (addWallet b a) := by
  apply canonical_ext (normalize_isCanonical _) (normalize_isCanonical _)
  intro d
  rw [denomTotal_normalize, denomTotal_normalize, denomTotal_addWallet,
    denomTotal_addWallet, Nat.add_comm]

theorem normalize_canonical_eq {w : List Coin} (hw : IsCanonical w) :
    normalize w = w :=
  canonical_ext (normalize_isCanonical w) hw (fun d => denomTotal_normalize w d)

/-- Claim C9: normalizing an already-canonical collection yields it
unchanged; equivalently, `normalize` is idempotent. -/
theorem normalize_idempotent (w : List Coin) :
    (IsCanonical w → normalize w = w) ∧
    normalize (normalize w) = normalize w :=
  ⟨fun hw => normalize_canonical_eq hw,
    normalize_canonical_eq (normalize_isCanonical w)⟩

/-- Witness for C9 at a concrete canonical wallet. -/
theorem normalize_idempotent_witness :
    normalize [⟨"a", 1⟩, ⟨"b", 2⟩] = [⟨"a", 1⟩, ⟨"b", 2⟩] :=
  (normalize_idempotent [⟨"a", 1⟩, ⟨"b", 2⟩]).1
    ((isCanonical_iff_aux _).mpr (by decide))

/-- Witness for C4 at a wallet with a three-entry run of one denomination. -/
theorem normalize_sum_preservation_witness :
    ∃ e ∈ normalize [⟨"a", 1⟩, ⟨"a", 2⟩, ⟨"a", 3⟩], e.denom = "a" ∧
      e.amount = denomTotal [⟨"a", 1⟩, ⟨"a", 2⟩, ⟨"a", 3⟩] "a" ∧
      ∀ f ∈ normalize [⟨"a", 1⟩, ⟨"a", 2⟩, ⟨"a", 3⟩], f.denom = "a" → f = e :=
  (normalize_sum_preservation [⟨"a", 1⟩, ⟨"a", 2⟩, ⟨"a", 3⟩] "a").2 (by decide)

/-- Claim C10: subtracting a zero-amount coin of an absent denomination is
not a no-op success: it fails with an underflow error whose attempted
(subtrahend) amount is 0. -/
theorem sub_zero_absent_underflow {w : List Coin} {d : String}
    (h : ∀ e ∈ w, e.denom ≠ d) :
    subCoin w ⟨d, 0⟩ = Except.error (StdError.underflow 0 0) :=
  subCoin_none ((find_eq_none_iff w d).2 h)

/-- Witness for C10. -/
theorem sub_zero_absent_underflow_witness :
    subCoin [⟨"b", 5⟩] ⟨"a", 0⟩ = Except.error (StdError.underflow 0 0) :=
  sub_zero_absent_underflow (by decide)


/-- Counterexample to claim C2 as stated over every collection: on a
wallet with duplicate denominations, subtraction consults only the first
entry for the denomination, so "some entry holds an amount below the
requested one" does not force failure. -/
theorem sub_underflow_iff_cex :
    ¬ ((∃ err, subCoin [⟨"a", 10⟩, ⟨"a", 1⟩] ⟨"a", 5⟩ = Except.error err) ↔
        ((∀ e ∈ ([⟨"a", 10⟩, ⟨"a", 1⟩] : List Coin), e.denom ≠ "a") ∨
          (∃ e ∈ ([⟨"a", 10⟩, ⟨"a", 1⟩] : List Coin),
            e.denom = "a" ∧ e.amount < 5))) := by
  intro hiff
  have hok : subCoin [⟨"a", 10⟩, ⟨"a", 1⟩] ⟨"a", 5⟩
      = Except.ok [⟨"a", 5⟩, ⟨"a", 1⟩] := by decide
  obtain ⟨err, herr⟩ := hiff.mpr (Or.inr ⟨⟨"a", 1⟩, by decide⟩)
  rw [hok] at herr
  exact Except.noConfusion herr

/-- Claim C2, amended to collections without duplicate denominations (in
particular every canonical collection): subtraction fails iff the
denomination is absent or its entry holds less than the requested amount,
and every failure is an underflow error carrying the requested amount as
subtrahend (so no wallet — mutated or otherwise — is returned on
failure). -/
theorem sub_underflow_iff {w : List Coin} {c : Coin}
    (hnd : (w.map Coin.denom).Nodup) :
    ((∃ err, subCoin w c = Except.error err) ↔
      ((∀ e ∈ w, e.denom ≠ c.denom) ∨
        (∃ e ∈ w, e.denom = c.denom ∧ e.amount < c.amount))) ∧
    (∀ err, subCoin w c = Except.error err →
      ∃ m, err = StdError.underflow m c.amount) := by
  cases hf : find w c.denom with
  | none =>
    have hno := (find_eq_none_iff _ _).1 hf
    refine ⟨⟨fun _ => Or.inl hno, fun _ => ⟨_, subCoin_none hf⟩⟩, ?_⟩
    intro err herr
    rw [subCoin_none hf] at herr
    cases herr
    exact ⟨0, rfl⟩
  | some p =>
    obtain ⟨i, e⟩ := p
    have hsp := find_some w c.denom i e hf
    have hmem : e ∈ w := List.getElem?_mem hsp.1
    by_cases hle : c.amount ≤ e.amount
    · have hok : ∃ v, subCoin w c = Except.ok v := by
        rw [subCoin_found hf, subAmount_ok hle]
        show ∃ v, (if e.amount - c.amount = 0 then Except.ok (w.eraseIdx i)
          else Except.ok (w.set i ⟨e.denom, e.amount - c.amount⟩)) = Except.ok v
        by_cases h0 : e.amount - c.amount = 0
        · exact ⟨_, by rw [if_pos h0]⟩
        · exact ⟨_, by rw [if_neg h0]⟩
      obtain ⟨v, hokv⟩ := hok
      constructor
      · constructor
        · rintro ⟨err, herr⟩
          rw [hokv] at herr
          exact Except.noConfusion herr
        · rintro (hno | ⟨f, hfmem, hfd, hflt⟩)
          · exact absurd hsp.2 (hno e hmem)
          · have hfe : f = e := nodup_denom_inj hnd hfmem hmem (hfd.trans hsp.2.symm)
            subst hfe
            omega
      · intro err herr
        rw [hokv] at herr
        exact Except.noConfusion herr
    · have herr : subCoin w c
          = Except.error (StdError.underflow e.amount c.amount) := by
        rw [subCoin_found hf, subAmount_err (by omega)]
      refine ⟨⟨fun _ => Or.inr ⟨e, hmem, hsp.2, by omega⟩, fun _ => ⟨_, herr⟩⟩, ?_⟩
      intro err he2
      rw [herr] at he2
      cases he2
      exact ⟨e.amount, rfl⟩

/-- Witness for the amended C2: subtracting more than the held amount
fails. -/
theorem sub_underflow_iff_witness :
    ∃ err, subCoin [⟨"a", 3⟩] ⟨"a", 5⟩ = Except.error err :=
  ((sub_underflow_iff (w := [⟨"a", 3⟩]) (c := ⟨"a", 5⟩) (by decide)).1).mpr
    (Or.inr ⟨⟨"a", 3⟩, by decide⟩)

/-- Counterexample to claim C3 as stated over every collection: the wallet
`[("a",1), ("a",10)]` contains the entry `("a",10)` with `10 ≥ 5`, yet
subtracting `("a",5)` fails, because `find` returns the first `"a"` entry,
which holds only 1. -/
theorem sub_success_cex :
    (⟨"a", 10⟩ ∈ ([⟨"a", 1⟩, ⟨"a", 10⟩] : List Coin)) ∧ (5 : Nat) ≤ 10 ∧
      ¬ ∃ w', subCoin [⟨"a", 1⟩, ⟨"a", 10⟩] ⟨"a", 5⟩ = Except.ok w' := by
  refine ⟨by decide, by decide, ?_⟩
  rintro ⟨w', hw'⟩
  have herr : subCoin [⟨"a", 1⟩, ⟨"a", 10⟩] ⟨"a", 5⟩
      = Except.error (StdError.underflow 1 5) := by decide
  rw [herr] at hw'
  exact Except.noConfusion hw'

/-- Claim C3, amended to collections without duplicate denominations: if
`w` holds entry `e` for the coin's denomination and `e.amount ≥ c.amount`,
subtraction succeeds; the entry disappears when the amounts are equal and
holds exactly the difference when strictly larger. -/
theorem sub_success {w : List Coin} {c e : Coin}
    (hnd : (w.map Coin.denom).Nodup) (he : e ∈ w) (hd : e.denom = c.denom)
    (hx : c.amount ≤ e.amount) :
    ∃ w', subCoin w c = Except.ok w' ∧
      (c.amount = e.amount → ∀ f ∈ w', f.denom ≠ c.denom) ∧
      (c.amount < e.amount →
        ∃ f ∈ w', f.denom = c.denom ∧ f.amount = e.amount - c.amount) := by
  obtain ⟨i, hfind⟩ := find_of_mem_nodup hnd he
  have hfind' : find w c.denom = some (i, e) := hd ▸ hfind
  have hsp := find_some w c.denom i e hfind'
  by_cases h0 : e.amount - c.amount = 0
  · refine ⟨w.eraseIdx i, ?_, ?_, ?_⟩
    · rw [subCoin_found hfind', subAmount_ok hx]
      show (if e.amount - c.amount = 0 then Except.ok (w.eraseIdx i)
        else Except.ok (w.set i ⟨e.denom, e.amount - c.amount⟩)) = _
      rw [if_pos h0]
    · intro _ f hf
      have hne := eraseIdx_denoms hnd hsp.1 f hf
      exact hsp.2 ▸ hne
    · intro hlt
      exact absurd h0 (by omega)
  · refine ⟨w.set i ⟨e.denom, e.amount - c.amount⟩, ?_, ?_, ?_⟩
    · rw [subCoin_found hfind', subAmount_ok hx]
      show (if e.amount - c.amount = 0 then Except.ok (w.eraseIdx i)
        else Except.ok (w.set i ⟨e.denom, e.amount - c.amount⟩)) = _
      rw [if_neg h0]
    · intro heq
      exact absurd (by omega : e.amount - c.amount = 0) h0
    · intro _
      exact ⟨⟨e.denom, e.amount - c.amount⟩, mem_set_self hsp.1 _, hd, rfl⟩

/-- Witness for the amended C3: both the removal case and the reduction
case at concrete inputs. -/
theorem sub_success_witness :
    ∃ w', subCoin [⟨"a", 5⟩, ⟨"b", 7⟩] ⟨"a", 2⟩ = Except.ok w' ∧
      ((2 : Nat) = 5 → ∀ f ∈ w', f.denom ≠ "a") ∧
      ((2 : Nat) < 5 → ∃ f ∈ w', f.denom = "a" ∧ f.amount = 5 - 2) :=
  sub_success (w := [⟨"a", 5⟩, ⟨"b", 7⟩]) (c := ⟨"a", 2⟩) (e := ⟨"a", 5⟩)
    (by decide) (by decide) (by decide) (by decide)

/-- Counterexample to claim C6 as stated over every collection: with
duplicate denominations, `has` consults only the first matching entry, so
it can return `false` although a later entry holds enough. -/
theorem has_iff_entry_cex :
    ¬ ((has [⟨"a", 1⟩, ⟨"a", 100⟩] ⟨"a", 5⟩ = true) ↔
        ∃ e ∈ ([⟨"a", 1⟩, ⟨"a", 100⟩] : List Coin),
          e.denom = "a" ∧ 5 ≤ e.amount) := by decide

/-- Claim C6, amended: on collections without duplicate denominations,
`has` returns true iff an entry of the required denomination holds at
least the required amount; and on every collection `has` returns false
when the denomination is absent.  (`has` takes the wallet by shared
reference and is modelled as a pure function, so it cannot change it.) -/
theorem has_iff_entry (w : List Coin) (r : Coin) :
    ((w.map Coin.denom).Nodup →
      (has w r = true ↔ ∃ e ∈ w, e.denom = r.denom ∧ r.amount ≤ e.amount)) ∧
    ((∀ e ∈ w, e.denom ≠ r.denom) → has w r = false) := by
  constructor
  · intro hnd
    rw [has_eq_true_iff_first]
    constructor
    · rintro ⟨m, hm, hle⟩
      have hmem := List.mem_of_find?_eq_some hm
      have hmd : m.denom = r.denom := by
        have := List.find?_some hm
        simpa using this
      exact ⟨m, hmem, hmd, hle⟩
    · rintro ⟨e, he, hed, hle⟩
      cases hf : w.find? (fun c => c.denom == r.denom) with
      | none =>
        exfalso
        have := List.find?_eq_none.1 hf e he
        simp [hed] at this
      | some m =>
        have hmem := List.mem_of_find?_eq_some hf
        have hmd : m.denom = r.denom := by
          have := List.find?_some hf
          simpa using this
        have hme : m = e := nodup_denom_inj hnd hmem he (hmd.trans hed.symm)
        exact ⟨m, rfl, hme ▸ hle⟩
  · intro habs
    rw [has]
    have hf : w.find? (fun c => c.denom == r.denom) = none := by
      rw [List.find?_eq_none]
      intro x hx
      simp [habs x hx]
    rw [hf]
    rfl

/-- Witness for the amended C6, matching the repository's `wallet_has_works`
test. -/
theorem has_iff_entry_witness :
    has [⟨"BTC", 555⟩, ⟨"ETH", 12345⟩] ⟨"ETH", 777⟩ = true :=
  ((has_iff_entry [⟨"BTC", 555⟩, ⟨"ETH", 12345⟩] ⟨"ETH", 777⟩).1 (by decide)).mpr
    ⟨⟨"ETH", 12345⟩, by decide⟩

/-- Counterexample to claim C5 as stated for every coin: adding a coin
with amount 0 of an absent denomination inserts a zero-amount entry, so
the result is not canonical. -/
theorem add_coin_canonical_cex :
    IsCanonical ([] : List Coin) ∧ addCoin [] ⟨"a", 0⟩ = [⟨"a", 0⟩] ∧
      ¬ IsCanonical [⟨"a", 0⟩] := by
  refine ⟨⟨by simp, by simp⟩, by decide, ?_⟩
  intro h
  exact h.1 ⟨"a", 0⟩ (List.mem_singleton_self _) rfl

/-- Claim C5, amended: on a canonical collection, scalar addition adds the
coin's amount to its denomination's total; the result is again canonical
provided the denomination was present or the added amount is nonzero; and
when the denomination is absent the coin is inserted before the first
entry of greater-or-equal denomination (appended if none), which is
exactly `insertSorted`. -/
theorem add_coin_canonical_preservation {w : List Coin} {c : Coin}
    (hw : IsCanonical w) :
    (∀ d, denomTotal (addCoin w c) d = denomTotal w d + coinContrib c d) ∧
    ((∃ e ∈ w, e.denom = c.denom) ∨ c.amount ≠ 0 → IsCanonical (addCoin w c)) ∧
    ((∀ e ∈ w, e.denom ≠ c.denom) → addCoin w c = insertSorted c w) :=
  ⟨fun d => denomTotal_addCoin w c d,
    fun h => addCoin_canonical hw h,
    fun h => addCoin_absent h⟩

/-- Witness for the amended C5. -/
theorem add_coin_canonical_preservation_witness :
    IsCanonical (addCoin [⟨"b", 2⟩] ⟨"a", 3⟩) :=
  (add_coin_canonical_preservation
    ((isCanonical_iff_aux [⟨"b", 2⟩]).mpr (by decide))).2.1 (Or.inr (by decide))

end Wallet
